import Mathlib

/-!
Verification development for the project-root sandbox (PathGuard / FsOps)
and the PTY session manager of an editor backend.

The filesystem is modelled as a finite set of absolute, component-wise
paths (a path is a list of name components below the filesystem root).
There are no symlinks in the model, so OS-level canonicalization of an
existing path coincides with lexical normalization (removing the
components "." and ".."); file contents are not modelled since no claim
depends on them.  Machine integers (u32 ids, depth counters) are
modelled as Nat; overflow is unreachable for the bounded loops involved.
-/

namespace EIDE

/-- A filesystem path: the list of components below the root directory. -/
abbrev FsPath := List String

/-- One component of lexical normalization: "." is dropped, ".." removes
the last collected component, anything else is appended. -/
def normStep (acc : FsPath) (c : String) : FsPath :=
  if c = "." then acc
  else if c = ".." then acc.dropLast
  else acc ++ [c]

/-- Lexical normalization: drop every "." component and let ".." remove the
preceding component (".." at the root stays at the root, as on POSIX). -/
def normalize (p : FsPath) : FsPath := p.foldl normStep []

/-- The filesystem state: existing directories, existing files, and the
list of subtrees that have been routed to the OS trash.  All stored paths
are kept in normalized form (the OS resolves "." and ".." at syscall
time, which the model performs via normalize at each mutation). -/
structure Fs where
  dirs : List FsPath
  files : List FsPath
  trashed : List FsPath
deriving Repr, DecidableEq

/-- Whether a normalized path is an existing directory. -/
def Fs.isDirN (fs : Fs) (n : FsPath) : Bool := n ∈ fs.dirs

/-- Whether a normalized path is an existing file. -/
def Fs.isFileN (fs : Fs) (n : FsPath) : Bool := n ∈ fs.files

/-- Whether a raw path refers to an existing entry (Path::exists — the OS
resolves traversal components while statting). -/
def Fs.pathExists (fs : Fs) (p : FsPath) : Bool :=
  fs.isDirN (normalize p) || fs.isFileN (normalize p)

/-- Whether a raw path refers to an existing directory (Path::is_dir). -/
def Fs.isDir (fs : Fs) (p : FsPath) : Bool := fs.isDirN (normalize p)

/-- Whether a raw path refers to an existing file. -/
def Fs.isFile (fs : Fs) (p : FsPath) : Bool := fs.isFileN (normalize p)

/-- fs::canonicalize: succeeds exactly on existing paths; with no symlinks
in the model the result is the lexical normalization. -/
def Fs.canonicalize (fs : Fs) (p : FsPath) : Option FsPath :=
  if fs.pathExists p then some (normalize p) else none

/-- Well-formedness of a filesystem state: the root directory exists,
every stored path is normalized (free of "." and ".."), the parent of
every entry is a directory, and no path is both a file and a directory. -/
def Fs.WF (fs : Fs) : Prop :=
  [] ∈ fs.dirs ∧
  (∀ p ∈ fs.dirs ++ fs.files, ∀ s ∈ p, s ≠ "." ∧ s ≠ "..") ∧
  (∀ p ∈ fs.dirs ++ fs.files, p ≠ [] → p.dropLast ∈ fs.dirs) ∧
  (∀ p ∈ fs.dirs, p ∉ fs.files)

/-- Rust Path component normalization of a raw path: non-leading "."
components are removed by the components iterator (paths in the model are
absolute, so every "." is removed). -/
def stripCur (p : FsPath) : FsPath := p.filter (fun c => c ≠ ".")

/-- Path::file_name: the final component, or none when the path ends in
".." (or is the bare root). -/
def fileNameOf (p : FsPath) : Option String :=
  match p.getLast? with
  | none => none
  | some s => if s = ".." then none else some s

/-- The ancestor-walk of validate_path for a non-existent path, with the
recursion bounded by explicit fuel (one unit per stripped component; the
fuel-exhaustion branch is unreachable when fuel ≥ p.length, since the
walk reaches the empty path — "no existing ancestor" — first): strip
trailing components (via Path::file_name / Path::parent) until an
existing ancestor is found, collecting the stripped components in order
(deepest first, as the source pushes them). -/
def findAncestorGo (fs : Fs) : Nat → FsPath → List String →
    Except String (FsPath × List String)
  | fuel, p, acc =>
    match p.getLast? with
    | none => .error ("Invalid path: no existing ancestor found")
    | some name =>
      if name = ".." then .error ("Invalid path")
      else
        if fs.pathExists p.dropLast then .ok (p.dropLast, acc ++ [name])
        else
          match fuel with
          | 0 => .error ("Invalid path: no existing ancestor found")
          | fuel2 + 1 => findAncestorGo fs fuel2 p.dropLast (acc ++ [name])

/-- The ancestor-walk of validate_path, at its full fuel budget. -/
def findAncestor (fs : Fs) (p : FsPath) (acc : List String) :
    Except String (FsPath × List String) :=
  findAncestorGo fs p.length p acc

/-- Re-attach the stripped trailing components (given in original path
order) onto the canonicalized ancestor, rejecting any "." or ".."
component (defense against constructing an escape through a
not-yet-existing path). -/
def reattach (base : FsPath) (parts : List String) : Except String FsPath :=
  match parts with
  | [] => .ok base
  | s :: rest =>
    if s = ".." ∨ s = "." then .error ("Invalid path: traversal not allowed")
    else reattach (base ++ [s]) rest

/-- The canonical form validate_path computes: direct canonicalization
when the path exists, else the canonicalized nearest existing ancestor
with the vetted trailing components re-attached in original order. -/
def canonicalOf (fs : Fs) (p : FsPath) : Except String FsPath :=
  if fs.pathExists p then
    match fs.canonicalize p with
    | some c => .ok c
    | none => .error ("Invalid path")
  else
    match findAncestor fs p [] with
    | .error e => .error e
    | .ok (anc, trailing) =>
      match fs.canonicalize anc with
      | none => .error ("Invalid path")
      | some c => reattach c trailing.reverse

/-- validate_path: canonicalize the argument (directly when it exists,
else via the nearest existing ancestor plus the vetted trailing
components) and require the result to be equal to or a descendant of the
project root. -/
def validate_path (fs : Fs) (root? : Option FsPath) (path : FsPath) :
    Except String FsPath :=
  match root? with
  | none => .error ("No project is open")
  | some root =>
    match canonicalOf fs (stripCur path) with
    | .error e => .error e
    | .ok c =>
      if root.isPrefixOf c then .ok c
      else .error ("Access denied: path is outside the project directory")

/-- validate_repo_path: canonicalize the repo path and require it to be
equal to or a descendant of the project root. -/
def validate_repo_path (fs : Fs) (root? : Option FsPath) (repo : FsPath) :
    Except String FsPath :=
  match root? with
  | none => .error ("No project is open")
  | some root =>
    match fs.canonicalize repo with
    | none => .error ("Invalid repo path")
    | some c =>
      if root.isPrefixOf c then .ok c
      else .error ("Access denied: repo path is outside the project directory")

/-- The list of all component-wise ancestors of a path, from the root
down to the path itself. -/
def prefixesOf (p : FsPath) : List FsPath :=
  (List.range (p.length + 1)).map (fun n => p.take n)

/-- fs::create_dir_all: create the target directory and every missing
ancestor; fails when some ancestor already exists as a file. -/
def Fs.mkdirAll (fs : Fs) (p : FsPath) : Except String Fs :=
  let n := normalize p
  if (prefixesOf n).any (fun q => fs.isFileN q) then
    .error ("Failed to create directory")
  else
    .ok { fs with
          dirs := fs.dirs ++ (prefixesOf n).filter (fun q => q ∉ fs.dirs) }

/-- trash::delete: move the entry and its whole subtree to the OS trash. -/
def Fs.trashDelete (fs : Fs) (p : FsPath) : Fs :=
  { dirs := fs.dirs.filter (fun d => ! (normalize p).isPrefixOf d),
    files := fs.files.filter (fun f => ! (normalize p).isPrefixOf f),
    trashed := fs.trashed ++ [normalize p] }

/-- fs::copy: copy a file to a destination path (overwriting). -/
def Fs.copyFile (fs : Fs) (src dst : FsPath) : Except String Fs :=
  if fs.isFile src then
    .ok { fs with
          files := (fs.files.filter (fun f => f ≠ normalize dst)) ++ [normalize dst] }
  else .error ("Failed to copy")

/-- fs::write of a (possibly empty) string: creates or overwrites the
file; fails when the target is a directory or its parent is missing. -/
def Fs.writeFile (fs : Fs) (p : FsPath) : Except String Fs :=
  let n := normalize p
  if fs.isDirN n then .error ("Failed to write file")
  else if fs.isDirN n.dropLast then
    .ok { fs with files := (fs.files.filter (fun f => f ≠ n)) ++ [n] }
  else .error ("Failed to write file")

/-- fs::rename: move the entry (with its subtree) to the destination
path.  Overwrite corner cases are not modelled; no claim depends on
them. -/
def Fs.rename (fs : Fs) (src dst : FsPath) : Except String Fs :=
  let s := normalize src
  let d := normalize dst
  if fs.pathExists src then
    let move := fun (p : FsPath) => if s.isPrefixOf p then d ++ p.drop s.length else p
    .ok { fs with dirs := fs.dirs.map move, files := fs.files.map move }
  else .error ("Failed to rename")

/-- The validation pass every bulk command runs over its path arguments
before touching the disk. -/
def validateAll (fs : Fs) (root? : Option FsPath) (paths : List FsPath) :
    Except String Unit :=
  match paths with
  | [] => .ok ()
  | p :: rest =>
    match validate_path fs root? p with
    | .error e => .error e
    | .ok _ => validateAll fs root? rest

/-- create_file: validate, fail when the target exists, auto-create the
missing parent directories, then write an empty file. -/
def create_file (fs : Fs) (root? : Option FsPath) (path : FsPath) :
    Except String Unit × Fs :=
  match validate_path fs root? path with
  | .error e => (.error e, fs)
  | .ok _ =>
    if fs.pathExists path then (.error ("File already exists"), fs)
    else
      match fs.mkdirAll (normalize path).dropLast with
      | .error e => (.error e, fs)
      | .ok fs1 =>
        match fs1.writeFile path with
        | .error e => (.error e, fs)
        | .ok fs2 => (.ok (), fs2)

/-- create_folder: validate, fail when the target exists, then
fs::create_dir_all on the target itself. -/
def create_folder (fs : Fs) (root? : Option FsPath) (path : FsPath) :
    Except String Unit × Fs :=
  match validate_path fs root? path with
  | .error e => (.error e, fs)
  | .ok _ =>
    if fs.pathExists path then (.error ("Folder already exists"), fs)
    else
      match fs.mkdirAll path with
      | .error e => (.error e, fs)
      | .ok fs1 => (.ok (), fs1)

/-- write_file_content: validate, then overwrite the whole file. -/
def write_file_content (fs : Fs) (root? : Option FsPath) (path : FsPath) :
    Except String Unit × Fs :=
  match validate_path fs root? path with
  | .error e => (.error e, fs)
  | .ok _ =>
    match fs.writeFile path with
    | .error e => (.error e, fs)
    | .ok fs1 => (.ok (), fs1)

/-- read_file_content: validate, then read the whole file (contents are
not modelled; success is existence as a file). -/
def read_file_content (fs : Fs) (root? : Option FsPath) (path : FsPath) :
    Except String Unit :=
  match validate_path fs root? path with
  | .error e => .error e
  | .ok _ =>
    if fs.isFile path then .ok () else .error ("Failed to read file")

/-- The deletion pass of delete_entries: skip absent paths, route
existing ones to the OS trash. -/
def deleteLoop (fs : Fs) (paths : List FsPath) : Except String Unit × Fs :=
  match paths with
  | [] => (.ok (), fs)
  | p :: rest =>
    if fs.pathExists p then deleteLoop (fs.trashDelete p) rest
    else deleteLoop fs rest

/-- delete_entries: validate every path, then trash each existing one
(silently skipping the absent ones). -/
def delete_entries (fs : Fs) (root? : Option FsPath) (paths : List FsPath) :
    Except String Unit × Fs :=
  match validateAll fs root? paths with
  | .error e => (.error e, fs)
  | .ok _ => deleteLoop fs paths

/-- rename_entry: validate both endpoints, then fs::rename. -/
def rename_entry (fs : Fs) (root? : Option FsPath) (old_path new_path : FsPath) :
    Except String Unit × Fs :=
  match validate_path fs root? old_path with
  | .error e => (.error e, fs)
  | .ok _ =>
    match validate_path fs root? new_path with
    | .error e => (.error e, fs)
    | .ok _ =>
      match fs.rename old_path new_path with
      | .error e => (.error e, fs)
      | .ok fs1 => (.ok (), fs1)

/-- The per-source pass of move_entries: canonicalize the source, forbid
moving a path into itself or a descendant of itself (canonical-path
prefix comparison against the pre-computed canonical destination), skip
when source and destination coincide, else fs::rename. -/
def moveLoop (fs : Fs) (dest : FsPath) (sources : List FsPath) :
    Except String Unit × Fs :=
  match sources with
  | [] => (.ok (), fs)
  | src :: rest =>
    match fs.canonicalize src with
    | none => (.error ("Invalid source"), fs)
    | some srcC =>
      if srcC.isPrefixOf dest then
        (.error ("Cannot move into itself or a subdirectory"), fs)
      else
        match srcC.getLast? with
        | none => (.error ("Invalid source file name"), fs)
        | some name =>
          let dstPath := dest ++ [name]
          if srcC = dstPath then moveLoop fs dest rest
          else
            match fs.rename srcC dstPath with
            | .error e => (.error e, fs)
            | .ok fs1 => moveLoop fs1 dest rest

/-- move_entries: validate all sources and the destination, canonicalize
the destination and require it to be a directory, then move each source
with self-move protection. -/
def move_entries (fs : Fs) (root? : Option FsPath) (sources : List FsPath)
    (dest_dir : FsPath) : Except String Unit × Fs :=
  match validateAll fs root? sources with
  | .error e => (.error e, fs)
  | .ok _ =>
    match validate_path fs root? dest_dir with
    | .error e => (.error e, fs)
    | .ok _ =>
      match fs.canonicalize dest_dir with
      | none => (.error ("Invalid destination"), fs)
      | some dest =>
        if fs.isDirN dest then moveLoop fs dest sources
        else (.error ("Destination is not a directory"), fs)

/-- The index of the final "." of a file name that separates the stem
from the extension: the last dot at a position ≥ 1 (a leading dot with no
other dot yields no extension, per Path::file_stem / Path::extension). -/
def lastDotIdx (cs : List Char) : Option Nat :=
  ((List.range cs.length).filter
    (fun i => decide (1 ≤ i) && (cs.getD i ' ' = '.'))).getLast?

/-- Path::file_stem and Path::extension of a file name, with the
extension already carrying its leading dot (or empty), exactly as the
commands format it. -/
def splitStemExt (name : String) : String × String :=
  match lastDotIdx name.data with
  | none => (name, "")
  | some i => (⟨name.data.take i⟩, ⟨'.' :: name.data.drop (i + 1)⟩)

/-- The candidate name of the i-th duplication attempt of
duplicate_entry: "stem copy" for the first try, "stem copy i" after,
with the extension re-appended for files. -/
def copyName (stem ext : String) (is_dir : Bool) (i : Nat) : String :=
  if i = 1 then
    if is_dir then stem ++ " copy" else stem ++ " copy" ++ ext
  else
    if is_dir then stem ++ " copy " ++ toString i
    else stem ++ " copy " ++ toString i ++ ext

/-- The collision-resolution loop of duplicate_entry: try attempt i,
i+1, ... and fail with "Too many copies exist" once the attempt budget
is spent (the source guards with i > 10000; here fuel = 10001 - i, so
fuel 0 is exactly that guard, and the initial call at i = 1 receives
fuel 10000). -/
def copyTargetLoop (fs : Fs) (parent : FsPath) (stem ext : String)
    (is_dir : Bool) : Nat → Nat → Except String FsPath
  | _, 0 => .error ("Too many copies exist")
  | i, fuel + 1 =>
    if fs.pathExists (parent ++ [copyName stem ext is_dir i]) then
      copyTargetLoop fs parent stem ext is_dir (i + 1) fuel
    else .ok (parent ++ [copyName stem ext is_dir i])

/-- The candidate name of the i-th paste/import collision attempt:
"stem copy<ext>" for the first try, "stem copy i<ext>" after (no
directory/file distinction in these two commands). -/
def pasteName (stem ext : String) (i : Nat) : String :=
  if i = 1 then stem ++ " copy" ++ ext
  else stem ++ " copy " ++ toString i ++ ext

/-- The collision-resolution loop of paste_entries and
import_external_files, with the same fuel discipline as
copyTargetLoop. -/
def pasteTargetLoop (fs : Fs) (dest : FsPath) (stem ext : String) :
    Nat → Nat → Except String FsPath
  | _, 0 => .error ("Too many copies exist")
  | i, fuel + 1 =>
    if fs.pathExists (dest ++ [pasteName stem ext i]) then
      pasteTargetLoop fs dest stem ext (i + 1) fuel
    else .ok (dest ++ [pasteName stem ext i])

/-- Destination choice of paste/import: the plain joined name when free,
else the collision-resolution loop seeded from the name's stem and
extension. -/
def resolveTarget (fs : Fs) (dest : FsPath) (fname : String) :
    Except String FsPath :=
  let target := dest ++ [fname]
  if fs.pathExists target then
    let se := splitStemExt fname
    pasteTargetLoop fs dest se.1 se.2 1 10000
  else .ok target

/-- The names of the child directories of a path. -/
def Fs.childDirNames (fs : Fs) (p : FsPath) : List String :=
  fs.dirs.filterMap (fun d =>
    if d ≠ [] ∧ d.dropLast = p then d.getLast? else none)

/-- The names of the child files of a path. -/
def Fs.childFileNames (fs : Fs) (p : FsPath) : List String :=
  fs.files.filterMap (fun f =>
    if f ≠ [] ∧ f.dropLast = p then f.getLast? else none)

mutual

/-- copy_dir_recursive_inner, with the depth counter replaced by its
remaining fuel (fuel = 51 - depth, so fuel 0 is exactly the source's
depth > MAX_COPY_DEPTH = 50 guard): create the destination directory,
then copy children (directories recursively, files flat).  Symlinks,
which the source skips, do not exist in the model. -/
def copyRecInner (fs : Fs) (src dst : FsPath) : Nat → Except String Fs
  | 0 => .error ("Maximum directory depth exceeded during copy")
  | fuel + 1 =>
    match fs.mkdirAll dst with
    | .error e => .error e
    | .ok fs0 => copyRecKids fs0 src dst (fs0.childDirNames (normalize src))
        (fs0.childFileNames (normalize src)) fuel
termination_by fuel => (fuel, 0, 0)

/-- The child-iteration of copy_dir_recursive_inner (directories first,
then files; the OS iteration order is unspecified). -/
def copyRecKids (fs : Fs) (src dst : FsPath) :
    List String → List String → Nat → Except String Fs
  | [], [], _ => .ok fs
  | [], fname :: frest, fuel =>
    match fs.copyFile (src ++ [fname]) (dst ++ [fname]) with
    | .error e => .error e
    | .ok fs1 => copyRecKids fs1 src dst [] frest fuel
  | dname :: drest, fnames, fuel =>
    match copyRecInner fs (src ++ [dname]) (dst ++ [dname]) fuel with
    | .error e => .error e
    | .ok fs1 => copyRecKids fs1 src dst drest fnames fuel
termination_by d f fuel => (fuel, 1, d.length + f.length)

end

/-- copy_dir_recursive: the recursive copy with its depth bound of 50. -/
def copy_dir_recursive (fs : Fs) (src dst : FsPath) : Except String Fs :=
  copyRecInner fs src dst 51

/-- duplicate_entry: validate, require existence, derive the stem and
extension of the source name, find the first free "copy" name next to
the source, and copy (recursively for directories). -/
def duplicate_entry (fs : Fs) (root? : Option FsPath) (path : FsPath) :
    Except String Unit × Fs :=
  match validate_path fs root? path with
  | .error e => (.error e, fs)
  | .ok _ =>
    if ¬ fs.pathExists path then (.error ("Path does not exist"), fs)
    else
      let q := stripCur path
      if q = [] then (.error ("No parent directory"), fs)
      else
        let parent := q.dropLast
        let se := splitStemExt ((fileNameOf q).getD "")
        let is_dir := fs.isDir path
        match copyTargetLoop fs parent se.1 se.2 is_dir 1 10000 with
        | .error e => (.error e, fs)
        | .ok target =>
          if is_dir then
            match copy_dir_recursive fs path target with
            | .error e => (.error e, fs)
            | .ok fs1 => (.ok (), fs1)
          else
            match fs.copyFile path target with
            | .error e => (.error e, fs)
            | .ok fs1 => (.ok (), fs1)

/-- The per-source pass of paste_entries: take the source's file name,
resolve the collision-free target under the destination, and copy. -/
def pasteSources (fs : Fs) (dest : FsPath) : List FsPath →
    Except String Unit × Fs
  | [] => (.ok (), fs)
  | src :: rest =>
    match fileNameOf (stripCur src) with
    | none => (.error ("Invalid source path"), fs)
    | some fname =>
      match resolveTarget fs dest fname with
      | .error e => (.error e, fs)
      | .ok target =>
        if fs.isDir src then
          match copy_dir_recursive fs src target with
          | .error e => (.error e, fs)
          | .ok fs1 => pasteSources fs1 dest rest
        else
          match fs.copyFile src target with
          | .error e => (.error e, fs)
          | .ok fs1 => pasteSources fs1 dest rest

/-- paste_entries: validate all sources and the destination, require the
destination to be a directory, then copy each source under a
collision-free name. -/
def paste_entries (fs : Fs) (root? : Option FsPath) (sources : List FsPath)
    (dest_dir : FsPath) : Except String Unit × Fs :=
  match validateAll fs root? sources with
  | .error e => (.error e, fs)
  | .ok _ =>
    match validate_path fs root? dest_dir with
    | .error e => (.error e, fs)
    | .ok _ =>
      if fs.isDir dest_dir then pasteSources fs dest_dir sources
      else (.error ("Destination is not a directory"), fs)

/-- The per-source pass of import_external_files: require the source to
exist, reject known-sensitive source directories (the source checks the
display string for "/.ssh", "/.gnupg", "/.aws"; component-wise this is a
path component of that name), then copy under a collision-free name. -/
def importSources (fs : Fs) (dest : FsPath) : List FsPath →
    Except String Unit × Fs
  | [] => (.ok (), fs)
  | src :: rest =>
    if ¬ fs.pathExists src then (.error ("Source does not exist"), fs)
    else
      match fs.canonicalize src with
      | none => (.error ("Invalid source"), fs)
      | some srcC =>
        if srcC.any (fun s => s = ".ssh" ∨ s = ".gnupg" ∨ s = ".aws") then
          (.error ("Cannot import from sensitive directory"), fs)
        else
          match fileNameOf (stripCur src) with
          | none => (.error ("Invalid source path"), fs)
          | some fname =>
            match resolveTarget fs dest fname with
            | .error e => (.error e, fs)
            | .ok target =>
              if fs.isDir src then
                match copy_dir_recursive fs src target with
                | .error e => (.error e, fs)
                | .ok fs1 => importSources fs1 dest rest
              else
                match fs.copyFile src target with
                | .error e => (.error e, fs)
                | .ok fs1 => importSources fs1 dest rest

/-- import_external_files: only the destination is validated against the
project root (sources come from OS drag-drop); the destination must be a
directory. -/
def import_external_files (fs : Fs) (root? : Option FsPath)
    (sources : List FsPath) (dest_dir : FsPath) : Except String Unit × Fs :=
  match validate_path fs root? dest_dir with
  | .error e => (.error e, fs)
  | .ok _ =>
    if fs.isDir dest_dir then importSources fs dest_dir sources
    else (.error ("Destination is not a directory"), fs)

/-- A node of the directory tree returned by read_dir_tree: name,
absolute path, directory flag, and the optional children list (none for
files, some for directories — empty at the depth cutoff to signal
"expandable"). -/
inductive FileEntry where
  | mk (name : String) (path : FsPath) (is_dir : Bool)
      (children : Option (List FileEntry))

/-- The name field of a FileEntry. -/
def FileEntry.name : FileEntry → String
  | .mk n _ _ _ => n

/-- The path field of a FileEntry. -/
def FileEntry.path : FileEntry → FsPath
  | .mk _ p _ _ => p

/-- The is_dir field of a FileEntry. -/
def FileEntry.is_dir : FileEntry → Bool
  | .mk _ _ d _ => d

/-- The children field of a FileEntry. -/
def FileEntry.children : FileEntry → Option (List FileEntry)
  | .mk _ _ _ c => c

/-- Strict order on Bool (false < true), for the directories-first sort. -/
def boolLt (x y : Bool) : Bool := !x && y

/-- The comparator of read_dir_recursive's sort: directories first, then
case-insensitive name order. -/
def entryLe (a b : FileEntry) : Bool :=
  boolLt b.is_dir a.is_dir ||
    (b.is_dir == a.is_dir && decide (a.name.toLower ≤ b.name.toLower))

/-- Ordered insertion for the stable sort of directory entries. -/
def insertEntry (x : FileEntry) : List FileEntry → List FileEntry
  | [] => [x]
  | y :: ys => if entryLe x y then x :: y :: ys else y :: insertEntry x ys

/-- The stable sort applied to each directory listing (directories
first, then alphabetical, case-insensitive). -/
def sortEntries : List FileEntry → List FileEntry
  | [] => []
  | x :: xs => insertEntry x (sortEntries xs)

/-- One directory's raw listing: child directories and child files with
their flags, with the ".git" entry skipped (symlinks, which the source
also skips, do not exist in the model). -/
def kidList (fs : Fs) (p : FsPath) : List (String × Bool) :=
  ((fs.childDirNames p).map (fun nm => (nm, true)) ++
    (fs.childFileNames p).map (fun nm => (nm, false))).filter
    (fun k => k.1 ≠ ".git")

/-- read_dir_recursive, with the recursion bounded by explicit fuel
(fuel = maxd + 1 - cur at every call, so the fuel-exhaustion branch is
unreachable: recursion only happens while cur < maxd): list one
directory, recursing into subdirectories while current_depth <
max_depth; at the cutoff a directory gets the empty children list
(expandable), files get none; a failing recursive listing becomes the
empty list (unwrap_or_default). -/
def readDirGo (fs : Fs) : Nat → FsPath → Nat → Nat →
    Except String (List FileEntry)
  | 0, _, _, _ => .ok []
  | fuel + 1, p, cur, maxd =>
    if fs.isDir p then
      .ok (sortEntries ((kidList fs (normalize p)).map (fun k =>
        .mk k.1 (p ++ [k.1]) k.2
          (if k.2 then
            if cur < maxd then
              some ((readDirGo fs fuel (p ++ [k.1]) (cur + 1) maxd).toOption.getD [])
            else some []
          else none))))
    else .error ("read_dir failed")

/-- read_dir_recursive, at its full fuel budget. -/
def read_dir_recursive (fs : Fs) (p : FsPath) (cur maxd : Nat) :
    Except String (List FileEntry) :=
  readDirGo fs (maxd + 1 - cur) p cur maxd

/-- read_dir_tree: validate, cap the requested depth (default 1) at 50,
then walk. -/
def read_dir_tree (fs : Fs) (root? : Option FsPath) (path : FsPath)
    (depth : Option Nat) : Except String (List FileEntry) :=
  match validate_path fs root? path with
  | .error e => .error e
  | .ok _ => read_dir_recursive fs path 0 (min (depth.getD 1) 50)

/-- The children of an entry, with an absent list read as empty. -/
def childrenOrNil (e : FileEntry) : List FileEntry := (e.children).getD []

/-- The nodes k levels below a list of tree nodes (level 0 is the list
itself). -/
def nodesAtDepth : Nat → List FileEntry → List FileEntry
  | 0, l => l
  | k + 1, l => nodesAtDepth k (l.map childrenOrNil).flatten

/-- The PTY session table: the ids of live sessions (the writer and
master handles they map to carry no further observable state in the
model) and the next fresh id. -/
structure TerminalManager where
  sessions : List Nat
  next_id : Nat
deriving Repr, DecidableEq

/-- The initial manager: empty table, ids start at 1. -/
def TerminalManager.new : TerminalManager := { sessions := [], next_id := 1 }

/-- HashMap::insert on the session table (a map never holds a duplicate
key). -/
def sessionsInsert (s : List Nat) (id : Nat) : List Nat :=
  id :: s.filter (fun x => x ≠ id)

/-- HashMap::remove on the session table. -/
def sessionsRemove (s : List Nat) (id : Nat) : List Nat :=
  s.filter (fun x => x ≠ id)

/-- spawn_terminal (the state transition after a successful PTY/shell
spawn): hand out next_id, bump it, insert the session. -/
def spawn_terminal (m : TerminalManager) : Nat × TerminalManager :=
  (m.next_id,
   { sessions := sessionsInsert m.sessions m.next_id, next_id := m.next_id + 1 })

/-- kill_terminal: remove the table entry (removing an absent entry is
not an error). -/
def kill_terminal (m : TerminalManager) (id : Nat) :
    Except String Unit × TerminalManager :=
  (.ok (), { m with sessions := sessionsRemove m.sessions id })

/-- An operation on the terminal subsystem, for reasoning over traces. -/
inductive TermOp where
  | spawn
  | write (id : Nat) (data : String)
  | resize (id : Nat) (rows cols : Nat)
  | kill (id : Nat)
deriving Repr, DecidableEq

/-- The state transition of one terminal operation (write and resize do
not change the table). -/
def stepOp (m : TerminalManager) : TermOp → TerminalManager
  | .spawn => (spawn_terminal m).2
  | .write _ _ => m
  | .resize _ _ _ => m
  | .kill id => (kill_terminal m id).2

/-- Run a list of terminal operations. -/
def runOps (m : TerminalManager) (ops : List TermOp) : TerminalManager :=
  ops.foldl stepOp m

/-- Whether a byte is a UTF-8 continuation byte (0x80–0xBF). -/
def isCont (b : Nat) : Bool := 0x80 ≤ b && b ≤ 0xBF

/-- Validity of a byte sequence as UTF-8 (the std::str::from_utf8
acceptance: ASCII, and the standard 2-, 3- and 4-byte ranges excluding
overlongs and surrogates). -/
def utf8Valid : List Nat → Bool
  | [] => true
  | b :: rest =>
    if b ≤ 0x7F then utf8Valid rest
    else if 0xC2 ≤ b && b ≤ 0xDF then
      match rest with
      | c1 :: r => isCont c1 && utf8Valid r
      | [] => false
    else if b = 0xE0 then
      match rest with
      | c1 :: c2 :: r => (0xA0 ≤ c1 && c1 ≤ 0xBF) && isCont c2 && utf8Valid r
      | _ => false
    else if (0xE1 ≤ b && b ≤ 0xEC) || b = 0xEE || b = 0xEF then
      match rest with
      | c1 :: c2 :: r => isCont c1 && isCont c2 && utf8Valid r
      | _ => false
    else if b = 0xED then
      match rest with
      | c1 :: c2 :: r => (0x80 ≤ c1 && c1 ≤ 0x9F) && isCont c2 && utf8Valid r
      | _ => false
    else if b = 0xF0 then
      match rest with
      | c1 :: c2 :: c3 :: r =>
        (0x90 ≤ c1 && c1 ≤ 0xBF) && isCont c2 && isCont c3 && utf8Valid r
      | _ => false
    else if 0xF1 ≤ b && b ≤ 0xF3 then
      match rest with
      | c1 :: c2 :: c3 :: r => isCont c1 && isCont c2 && isCont c3 && utf8Valid r
      | _ => false
    else if b = 0xF4 then
      match rest with
      | c1 :: c2 :: c3 :: r =>
        (0x80 ≤ c1 && c1 ≤ 0x8F) && isCont c2 && isCont c3 && utf8Valid r
      | _ => false
    else false

/-- The walk-back of the reader thread: starting from the full buffer
length, decrement while the prefix is not valid UTF-8. -/
def lvlGo (p : List Nat) : Nat → Nat
  | 0 => 0
  | n + 1 => if utf8Valid (p.take (n + 1)) then n + 1 else lvlGo p n

/-- The longest valid-UTF-8 prefix length of the pending buffer. -/
def longestValidLen (p : List Nat) : Nat := lvlGo p p.length

/-- One iteration of the reader loop on a successful read: append the
chunk to the pending buffer, emit the longest valid prefix when
non-empty, hold back the rest. -/
def readerStep (pending chunk : List Nat) : List (List Nat) × List Nat :=
  let pend := pending ++ chunk
  let l := longestValidLen pend
  if l > 0 then ([pend.take l], pend.drop l) else ([], pend)

/-- The reader loop over a whole sequence of reads: the chunks emitted
before end-of-stream, and the held-back tail that the loop flushes
(best-effort decoded) only at EOF or read error. -/
def readerRun (pending : List Nat) : List (List Nat) → List (List Nat) × List Nat
  | [] => ([], pending)
  | c :: rest =>
    let s := readerStep pending c
    let r := readerRun s.2 rest
    (s.1 ++ r.1, r.2)

/-- The session-table invariant: every live id is below next_id. -/
def TMinv (m : TerminalManager) : Prop := ∀ s ∈ m.sessions, s < m.next_id

/-- The concrete filesystem used for counterexamples: a root directory
"home" containing the project directory "home/proj". -/
def fsC2 : Fs := { dirs := [[], ["home"], ["home", "proj"]], files := [], trashed := [] }

/-- The concrete filesystem for the create counterexample: just the
project root "r". -/
def fsC5 : Fs := { dirs := [[], ["r"]], files := [], trashed := [] }

/-- The concrete filesystem for the move witness: project root "r" with
directory "r/d" containing "r/d/e". -/
def fsC6 : Fs :=
  { dirs := [[], ["r"], ["r", "d"], ["r", "d", "e"]], files := [], trashed := [] }

/-- The concrete filesystem for the depth witness: a chain
"r" / "r/a" / "r/a/b" / "r/a/b/c". -/
def fsC7 : Fs :=
  { dirs := [[], ["r"], ["r", "a"], ["r", "a", "b"], ["r", "a", "b", "c"]],
    files := [], trashed := [] }

/-- The concrete filesystem for the duplicate witness: project root "r"
containing the file "r/a.txt". -/
def fsC8 : Fs := { dirs := [[], ["r"]], files := [["r", "a.txt"]], trashed := [] }

/-- The concrete filesystem for the delete counterexample: project root
"r" containing "r/x" containing "r/x/y". -/
def fsC9 : Fs :=
  { dirs := [[], ["r"], ["r", "x"], ["r", "x", "y"]], files := [], trashed := [] }

/-! ## Theorems -/

/-- A failed Except is an error value. -/
lemma except_error_of_isOk_false {α : Type} (x : Except String α)
    (h : x.isOk = false) : ∃ e, x = .error e := by
  cases x with
  | error e => exact ⟨e, rfl⟩
  | ok a => simp [Except.isOk, Except.toBool] at h



lemma tminv_new : TMinv TerminalManager.new := by
  intro s hs; simp [TerminalManager.new] at hs

lemma tminv_step (m : TerminalManager) (op : TermOp) (h : TMinv m) :
    TMinv (stepOp m op) := by
  cases op with
  | spawn =>
    intro s hs
    simp only [stepOp, spawn_terminal, sessionsInsert, List.mem_cons] at hs
    show s < m.next_id + 1
    rcases hs with h1 | h2
    · omega
    · have := h s (List.mem_of_mem_filter h2); omega
  | write id data => exact h
  | resize id r c => exact h
  | kill id =>
    intro s hs
    simp only [stepOp, kill_terminal, sessionsRemove] at hs
    exact h s (List.mem_of_mem_filter hs)

lemma tminv_run (m : TerminalManager) (ops : List TermOp) (h : TMinv m) :
    TMinv (runOps m ops) := by
  induction ops generalizing m with
  | nil => exact h
  | cons op rest ih =>
    simp only [runOps, List.foldl_cons]
    exact ih (stepOp m op) (tminv_step m op h)

/-- C10: kill_terminal returns success for every id, including ids that
were never issued or were already removed, and afterwards the session
table does not contain the id. -/
theorem C10_kill_total (m : TerminalManager) (id : Nat) :
    (kill_terminal m id).1 = .ok ()
    ∧ id ∉ (kill_terminal m id).2.sessions := by
  refine ⟨rfl, ?_⟩
  simp [kill_terminal, sessionsRemove]

lemma normStep_clean (acc : FsPath) (c : String)
    (h : ∀ s ∈ acc, s ≠ "." ∧ s ≠ "..") :
    ∀ s ∈ normStep acc c, s ≠ "." ∧ s ≠ ".." := by
  intro s hs
  unfold normStep at hs
  by_cases h1 : c = "."
  · rw [if_pos h1] at hs; exact h s hs
  · rw [if_neg h1] at hs
    by_cases h2 : c = ".."
    · rw [if_pos h2] at hs
      exact h s ((List.dropLast_sublist acc).subset hs)
    · rw [if_neg h2] at hs
      rcases List.mem_append.mp hs with h3 | h3
      · exact h s h3
      · simp only [List.mem_singleton] at h3
        subst h3
        exact ⟨h1, h2⟩

lemma foldl_normStep_clean (p : FsPath) (acc : FsPath)
    (h : ∀ s ∈ acc, s ≠ "." ∧ s ≠ "..") :
    ∀ s ∈ p.foldl normStep acc, s ≠ "." ∧ s ≠ ".." := by
  induction p generalizing acc with
  | nil => exact h
  | cons c rest ih =>
    simp only [List.foldl_cons]
    exact ih (normStep acc c) (normStep_clean acc c h)

/-- A normalized path contains no "." or ".." component. -/
lemma normalize_clean (p : FsPath) : ∀ s ∈ normalize p, s ≠ "." ∧ s ≠ ".." :=
  foldl_normStep_clean p [] (by intro s hs; cases hs)

lemma canonicalize_eq_normalize (fs : Fs) (p c : FsPath)
    (h : fs.canonicalize p = some c) : c = normalize p := by
  unfold Fs.canonicalize at h
  by_cases h1 : fs.pathExists p = true
  · rw [if_pos h1] at h; injection h with h2; exact h2.symm
  · rw [if_neg h1] at h; cases h

lemma reattach_ok (parts : List String) (b c : FsPath)
    (h : reattach b parts = .ok c) :
    c = b ++ parts ∧ ∀ s ∈ parts, s ≠ "." ∧ s ≠ ".." := by
  induction parts generalizing b with
  | nil =>
    simp only [reattach] at h
    injection h with h2
    subst h2
    exact ⟨by simp, by intro s hs; cases hs⟩
  | cons s rest ih =>
    simp only [reattach] at h
    by_cases h1 : s = ".." ∨ s = "."
    · rw [if_pos h1] at h; exact Except.noConfusion h
    · rw [if_neg h1] at h
      obtain ⟨hc, hrest⟩ := ih (b ++ [s]) h
      push_neg at h1
      constructor
      · rw [hc]; simp
      · intro t ht
        rcases List.mem_cons.mp ht with h2 | h2
        · subst h2; exact ⟨h1.2, h1.1⟩
        · exact hrest t h2

/-- Any canonical form computed by validate_path's canonicalization is
free of "." and ".." components. -/
lemma canonicalOf_ok_clean (fs : Fs) (p c : FsPath)
    (h : canonicalOf fs p = .ok c) : ∀ s ∈ c, s ≠ "." ∧ s ≠ ".." := by
  unfold canonicalOf at h
  by_cases h1 : fs.pathExists p = true
  · rw [if_pos h1] at h
    cases h2 : fs.canonicalize p with
    | none => rw [h2] at h; exact Except.noConfusion h
    | some c2 =>
      rw [h2] at h
      dsimp only at h
      injection h with h3
      subst h3
      have h4 := canonicalize_eq_normalize fs p c2 h2
      subst h4
      exact normalize_clean p
  · rw [if_neg h1] at h
    cases h2 : findAncestor fs p [] with
    | error e => rw [h2] at h; exact Except.noConfusion h
    | ok pr =>
      obtain ⟨anc, tr⟩ := pr
      rw [h2] at h
      dsimp only at h
      cases h3 : fs.canonicalize anc with
      | none => rw [h3] at h; exact Except.noConfusion h
      | some cb =>
        rw [h3] at h
        dsimp only at h
        obtain ⟨hc, hparts⟩ := reattach_ok tr.reverse cb c h
        subst hc
        intro s hs
        rcases List.mem_append.mp hs with h4 | h4
        · have hb := canonicalize_eq_normalize fs anc cb h3
          subst hb
          exact normalize_clean anc s h4
        · exact hparts s h4

/-- validate_path only accepts canonical paths inside the project root,
and those contain no traversal components. -/
lemma validate_ok_inside (fs : Fs) (root path c : FsPath)
    (h : validate_path fs (some root) path = .ok c) :
    root.isPrefixOf c = true ∧ ∀ s ∈ c, s ≠ "." ∧ s ≠ ".." := by
  unfold validate_path at h
  cases h2 : canonicalOf fs (stripCur path) with
  | error e => rw [h2] at h; exact Except.noConfusion h
  | ok c2 =>
    rw [h2] at h
    dsimp only at h
    by_cases hp : root.isPrefixOf c2 = true
    · rw [if_pos hp] at h
      injection h with h3
      subst h3
      exact ⟨hp, canonicalOf_ok_clean fs _ c2 h2⟩
    · rw [if_neg hp] at h; exact Except.noConfusion h

lemma findAncestorGo_clean (fs : Fs) :
    ∀ fuel (p : FsPath), "." ∉ p →
    ∀ (acc : List String), (∀ s ∈ acc, s ≠ "." ∧ s ≠ "..") →
    ∀ anc tr, findAncestorGo fs fuel p acc = .ok (anc, tr) →
      (∀ s ∈ tr, s ≠ "." ∧ s ≠ "..") := by
  intro fuel
  induction fuel with
  | zero =>
    intro p hp acc hacc anc tr h
    unfold findAncestorGo at h
    cases h2 : p.getLast? with
    | none => rw [h2] at h; exact Except.noConfusion h
    | some name =>
      rw [h2] at h
      dsimp only at h
      by_cases h3 : name = ".."
      · rw [if_pos h3] at h; exact Except.noConfusion h
      · rw [if_neg h3] at h
        have hname : name ∈ p := by
          obtain ⟨hne, heq⟩ := List.mem_getLast?_eq_getLast (l := p) (x := name) h2
          rw [heq]; exact List.getLast_mem hne
        have hnamec : name ≠ "." := fun he => hp (he ▸ hname)
        have hacc2 : ∀ s ∈ acc ++ [name], s ≠ "." ∧ s ≠ ".." := by
          intro s hs
          rcases List.mem_append.mp hs with h4 | h4
          · exact hacc s h4
          · simp only [List.mem_singleton] at h4
            subst h4
            exact ⟨hnamec, h3⟩
        by_cases h4 : fs.pathExists p.dropLast = true
        · rw [if_pos h4] at h
          injection h with h5
          injection h5 with h6 h7
          subst h7
          exact hacc2
        · rw [if_neg h4] at h
          exact Except.noConfusion h
  | succ fuel ih =>
    intro p hp acc hacc anc tr h
    unfold findAncestorGo at h
    cases h2 : p.getLast? with
    | none => rw [h2] at h; exact Except.noConfusion h
    | some name =>
      rw [h2] at h
      dsimp only at h
      by_cases h3 : name = ".."
      · rw [if_pos h3] at h; exact Except.noConfusion h
      · rw [if_neg h3] at h
        have hname : name ∈ p := by
          obtain ⟨hne, heq⟩ := List.mem_getLast?_eq_getLast (l := p) (x := name) h2
          rw [heq]; exact List.getLast_mem hne
        have hnamec : name ≠ "." := fun he => hp (he ▸ hname)
        have hacc2 : ∀ s ∈ acc ++ [name], s ≠ "." ∧ s ≠ ".." := by
          intro s hs
          rcases List.mem_append.mp hs with h4 | h4
          · exact hacc s h4
          · simp only [List.mem_singleton] at h4
            subst h4
            exact ⟨hnamec, h3⟩
        have hpd : "." ∉ p.dropLast :=
          fun he => hp ((List.dropLast_sublist p).subset he)
        by_cases h4 : fs.pathExists p.dropLast = true
        · rw [if_pos h4] at h
          injection h with h5
          injection h5 with h6 h7
          subst h7
          exact hacc2
        · rw [if_neg h4] at h
          exact ih p.dropLast hpd (acc ++ [name]) hacc2 anc tr h

/-- A "." component never survives stripCur. -/
lemma stripCur_no_dot (p : FsPath) : "." ∉ stripCur p := by
  intro h
  have := List.of_mem_filter h
  simp at this

lemma validateAll_err_of_mem (fs : Fs) (root? : Option FsPath)
    (paths : List FsPath) (p : FsPath) (hp : p ∈ paths)
    (h : (validate_path fs root? p).isOk = false) :
    (validateAll fs root? paths).isOk = false := by
  induction paths with
  | nil => cases hp
  | cons q rest ih =>
    simp only [validateAll]
    cases hq : validate_path fs root? q with
    | error e => simp [Except.isOk, Except.toBool]
    | ok c =>
      dsimp only
      rcases List.mem_cons.mp hp with h1 | h1
      · subst h1; rw [hq] at h; simp [Except.isOk, Except.toBool] at h
      · exact ih h1

lemma isOk_false_error (e : String) {α : Type} :
    (Except.error e : Except String α).isOk = false := by
  simp [Except.isOk, Except.toBool]

lemma create_file_inv (fs : Fs) (root? : Option FsPath) (p : FsPath)
    (h : (validate_path fs root? p).isOk = false) :
    (create_file fs root? p).1.isOk = false ∧ (create_file fs root? p).2 = fs := by
  obtain ⟨e, he⟩ := except_error_of_isOk_false _ h
  unfold create_file; rw [he]
  exact ⟨isOk_false_error e, rfl⟩

lemma create_folder_inv (fs : Fs) (root? : Option FsPath) (p : FsPath)
    (h : (validate_path fs root? p).isOk = false) :
    (create_folder fs root? p).1.isOk = false ∧ (create_folder fs root? p).2 = fs := by
  obtain ⟨e, he⟩ := except_error_of_isOk_false _ h
  unfold create_folder; rw [he]
  exact ⟨isOk_false_error e, rfl⟩

lemma write_file_content_inv (fs : Fs) (root? : Option FsPath) (p : FsPath)
    (h : (validate_path fs root? p).isOk = false) :
    (write_file_content fs root? p).1.isOk = false
    ∧ (write_file_content fs root? p).2 = fs := by
  obtain ⟨e, he⟩ := except_error_of_isOk_false _ h
  unfold write_file_content; rw [he]
  exact ⟨isOk_false_error e, rfl⟩

lemma read_file_content_inv (fs : Fs) (root? : Option FsPath) (p : FsPath)
    (h : (validate_path fs root? p).isOk = false) :
    (read_file_content fs root? p).isOk = false := by
  obtain ⟨e, he⟩ := except_error_of_isOk_false _ h
  unfold read_file_content; rw [he]
  exact isOk_false_error e

lemma read_dir_tree_inv (fs : Fs) (root? : Option FsPath) (p : FsPath)
    (d : Option Nat) (h : (validate_path fs root? p).isOk = false) :
    (read_dir_tree fs root? p d).isOk = false := by
  obtain ⟨e, he⟩ := except_error_of_isOk_false _ h
  unfold read_dir_tree; rw [he]
  exact isOk_false_error e

lemma duplicate_entry_inv (fs : Fs) (root? : Option FsPath) (p : FsPath)
    (h : (validate_path fs root? p).isOk = false) :
    (duplicate_entry fs root? p).1.isOk = false
    ∧ (duplicate_entry fs root? p).2 = fs := by
  obtain ⟨e, he⟩ := except_error_of_isOk_false _ h
  unfold duplicate_entry; rw [he]
  exact ⟨isOk_false_error e, rfl⟩

lemma delete_entries_inv (fs : Fs) (root? : Option FsPath)
    (paths : List FsPath) (p : FsPath) (hp : p ∈ paths)
    (h : (validate_path fs root? p).isOk = false) :
    (delete_entries fs root? paths).1.isOk = false
    ∧ (delete_entries fs root? paths).2 = fs := by
  obtain ⟨e, he⟩ := except_error_of_isOk_false _
    (validateAll_err_of_mem fs root? paths p hp h)
  unfold delete_entries; rw [he]
  exact ⟨isOk_false_error e, rfl⟩

lemma rename_entry_inv_old (fs : Fs) (root? : Option FsPath) (p other : FsPath)
    (h : (validate_path fs root? p).isOk = false) :
    (rename_entry fs root? p other).1.isOk = false
    ∧ (rename_entry fs root? p other).2 = fs := by
  obtain ⟨e, he⟩ := except_error_of_isOk_false _ h
  unfold rename_entry; rw [he]
  exact ⟨isOk_false_error e, rfl⟩

lemma rename_entry_inv_new (fs : Fs) (root? : Option FsPath) (p other : FsPath)
    (h : (validate_path fs root? p).isOk = false) :
    (rename_entry fs root? other p).1.isOk = false
    ∧ (rename_entry fs root? other p).2 = fs := by
  obtain ⟨e, he⟩ := except_error_of_isOk_false _ h
  unfold rename_entry
  cases ho : validate_path fs root? other with
  | error e2 => exact ⟨isOk_false_error e2, rfl⟩
  | ok c =>
    dsimp only
    rw [he]
    exact ⟨isOk_false_error e, rfl⟩

lemma move_entries_inv_src (fs : Fs) (root? : Option FsPath)
    (sources : List FsPath) (dest p : FsPath) (hp : p ∈ sources)
    (h : (validate_path fs root? p).isOk = false) :
    (move_entries fs root? sources dest).1.isOk = false
    ∧ (move_entries fs root? sources dest).2 = fs := by
  obtain ⟨e, he⟩ := except_error_of_isOk_false _
    (validateAll_err_of_mem fs root? sources p hp h)
  unfold move_entries; rw [he]
  exact ⟨isOk_false_error e, rfl⟩

lemma move_entries_inv_dest (fs : Fs) (root? : Option FsPath)
    (sources : List FsPath) (p : FsPath)
    (h : (validate_path fs root? p).isOk = false) :
    (move_entries fs root? sources p).1.isOk = false
    ∧ (move_entries fs root? sources p).2 = fs := by
  obtain ⟨e, he⟩ := except_error_of_isOk_false _ h
  unfold move_entries
  cases ha : validateAll fs root? sources with
  | error e2 => exact ⟨isOk_false_error e2, rfl⟩
  | ok u =>
    dsimp only
    rw [he]
    exact ⟨isOk_false_error e, rfl⟩

lemma paste_entries_inv_src (fs : Fs) (root? : Option FsPath)
    (sources : List FsPath) (dest p : FsPath) (hp : p ∈ sources)
    (h : (validate_path fs root? p).isOk = false) :
    (paste_entries fs root? sources dest).1.isOk = false
    ∧ (paste_entries fs root? sources dest).2 = fs := by
  obtain ⟨e, he⟩ := except_error_of_isOk_false _
    (validateAll_err_of_mem fs root? sources p hp h)
  unfold paste_entries; rw [he]
  exact ⟨isOk_false_error e, rfl⟩

lemma paste_entries_inv_dest (fs : Fs) (root? : Option FsPath)
    (sources : List FsPath) (p : FsPath)
    (h : (validate_path fs root? p).isOk = false) :
    (paste_entries fs root? sources p).1.isOk = false
    ∧ (paste_entries fs root? sources p).2 = fs := by
  obtain ⟨e, he⟩ := except_error_of_isOk_false _ h
  unfold paste_entries
  cases ha : validateAll fs root? sources with
  | error e2 => exact ⟨isOk_false_error e2, rfl⟩
  | ok u =>
    dsimp only
    rw [he]
    exact ⟨isOk_false_error e, rfl⟩

lemma import_external_inv_dest (fs : Fs) (root? : Option FsPath)
    (sources : List FsPath) (p : FsPath)
    (h : (validate_path fs root? p).isOk = false) :
    (import_external_files fs root? sources p).1.isOk = false
    ∧ (import_external_files fs root? sources p).2 = fs := by
  obtain ⟨e, he⟩ := except_error_of_isOk_false _ h
  unfold import_external_files; rw [he]
  exact ⟨isOk_false_error e, rfl⟩

/-- C1: the sandbox property of the PathGuard.  (1) Any path accepted by
validate_path canonicalizes to a descendant of (or equal to) the project
root and carries no "." or ".." component — so every path whose
canonical form escapes the root is rejected, whether it exists or not.
(2) For a non-existent path, the trailing components stripped by the
ancestor walk can never include "." or ".." on success — such paths are
rejected.  (3) When validation fails, every gated FsOps command returns
an error and leaves the filesystem state untouched, in whichever
argument position the offending path occurs. -/
theorem C1_path_guard (fs : Fs) (root path : FsPath) :
    (∀ c, validate_path fs (some root) path = .ok c →
      root.isPrefixOf c = true ∧ ∀ s ∈ c, s ≠ "." ∧ s ≠ "..")
    ∧ (∀ anc tr, fs.pathExists (stripCur path) = false →
        findAncestor fs (stripCur path) [] = .ok (anc, tr) →
        ∀ s ∈ tr, s ≠ "." ∧ s ≠ "..")
    ∧ ((validate_path fs (some root) path).isOk = false →
        ((create_file fs (some root) path).1.isOk = false
          ∧ (create_file fs (some root) path).2 = fs)
        ∧ ((create_folder fs (some root) path).1.isOk = false
          ∧ (create_folder fs (some root) path).2 = fs)
        ∧ ((write_file_content fs (some root) path).1.isOk = false
          ∧ (write_file_content fs (some root) path).2 = fs)
        ∧ (read_file_content fs (some root) path).isOk = false
        ∧ (∀ d, (read_dir_tree fs (some root) path d).isOk = false)
        ∧ ((duplicate_entry fs (some root) path).1.isOk = false
          ∧ (duplicate_entry fs (some root) path).2 = fs)
        ∧ (∀ paths, path ∈ paths →
            (delete_entries fs (some root) paths).1.isOk = false
            ∧ (delete_entries fs (some root) paths).2 = fs)
        ∧ (∀ other,
            ((rename_entry fs (some root) path other).1.isOk = false
              ∧ (rename_entry fs (some root) path other).2 = fs)
            ∧ ((rename_entry fs (some root) other path).1.isOk = false
              ∧ (rename_entry fs (some root) other path).2 = fs))
        ∧ (∀ sources dest, path ∈ sources →
            ((move_entries fs (some root) sources dest).1.isOk = false
              ∧ (move_entries fs (some root) sources dest).2 = fs)
            ∧ ((paste_entries fs (some root) sources dest).1.isOk = false
              ∧ (paste_entries fs (some root) sources dest).2 = fs))
        ∧ (∀ sources,
            ((move_entries fs (some root) sources path).1.isOk = false
              ∧ (move_entries fs (some root) sources path).2 = fs)
            ∧ ((paste_entries fs (some root) sources path).1.isOk = false
              ∧ (paste_entries fs (some root) sources path).2 = fs)
            ∧ ((import_external_files fs (some root) sources path).1.isOk = false
              ∧ (import_external_files fs (some root) sources path).2 = fs))) := by
  refine ⟨?_, ?_, ?_⟩
  · intro c h
    exact validate_ok_inside fs root path c h
  · intro anc tr _hne h
    exact findAncestorGo_clean fs (stripCur path).length (stripCur path)
      (stripCur_no_dot path) [] (by intro s hs; cases hs) anc tr h
  · intro h
    refine ⟨create_file_inv fs _ path h, create_folder_inv fs _ path h,
      write_file_content_inv fs _ path h, read_file_content_inv fs _ path h,
      fun d => read_dir_tree_inv fs _ path d h,
      duplicate_entry_inv fs _ path h,
      fun paths hp => delete_entries_inv fs _ paths path hp h,
      fun other => ⟨rename_entry_inv_old fs _ path other h,
        rename_entry_inv_new fs _ path other h⟩,
      fun sources dest hp => ⟨move_entries_inv_src fs _ sources dest path hp h,
        paste_entries_inv_src fs _ sources dest path hp h⟩,
      fun sources => ⟨move_entries_inv_dest fs _ sources path h,
        paste_entries_inv_dest fs _ sources path h,
        import_external_inv_dest fs _ sources path h⟩⟩

lemma lvlGo_valid (p : List Nat) : ∀ n, utf8Valid (p.take (lvlGo p n)) = true := by
  intro n
  induction n with
  | zero => rfl
  | succ n ih =>
    unfold lvlGo
    by_cases h : utf8Valid (p.take (n + 1)) = true
    · rw [if_pos h]; exact h
    · rw [if_neg h]; exact ih

lemma lvlGo_le (p : List Nat) : ∀ n, lvlGo p n ≤ n := by
  intro n
  induction n with
  | zero => exact le_rfl
  | succ n ih =>
    unfold lvlGo
    by_cases h : utf8Valid (p.take (n + 1)) = true
    · rw [if_pos h]
    · rw [if_neg h]; omega

lemma lvlGo_greatest (p : List Nat) :
    ∀ n m, lvlGo p n < m → m ≤ n → utf8Valid (p.take m) = false := by
  intro n
  induction n with
  | zero => intro m h1 h2; omega
  | succ n ih =>
    intro m h1 h2
    unfold lvlGo at h1
    by_cases h : utf8Valid (p.take (n + 1)) = true
    · rw [if_pos h] at h1; omega
    · rw [if_neg h] at h1
      by_cases hm : m ≤ n
      · exact ih m h1 hm
      · have : m = n + 1 := by omega
        subst this
        simpa using h

lemma readerStep_flatten (pending chunk : List Nat) :
    (readerStep pending chunk).1.flatten ++ (readerStep pending chunk).2
      = pending ++ chunk := by
  unfold readerStep
  by_cases h : longestValidLen (pending ++ chunk) > 0
  · rw [if_pos h]
    simp [List.take_append_drop]
  · rw [if_neg h]
    simp

lemma readerStep_valid (pending chunk : List Nat) :
    ∀ e ∈ (readerStep pending chunk).1, utf8Valid e = true := by
  unfold readerStep
  by_cases h : longestValidLen (pending ++ chunk) > 0
  · rw [if_pos h]
    intro e he
    simp only [List.mem_singleton] at he
    subst he
    exact lvlGo_valid (pending ++ chunk) (pending ++ chunk).length
  · rw [if_neg h]
    intro e he
    cases he

lemma readerRun_valid (chunks : List (List Nat)) (pending : List Nat) :
    ∀ e ∈ (readerRun pending chunks).1, utf8Valid e = true := by
  induction chunks generalizing pending with
  | nil => intro e he; cases he
  | cons c rest ih =>
    intro e he
    simp only [readerRun, List.mem_append] at he
    rcases he with he | he
    · exact readerStep_valid pending c e he
    · exact ih (readerStep pending c).2 e he

lemma readerRun_flatten (chunks : List (List Nat)) (pending : List Nat) :
    (readerRun pending chunks).1.flatten ++ (readerRun pending chunks).2
      = pending ++ chunks.flatten := by
  induction chunks generalizing pending with
  | nil => simp [readerRun]
  | cons c rest ih =>
    simp only [readerRun, List.flatten_append, List.flatten_cons]
    rw [List.append_assoc, ih (readerStep pending c).2,
      ← List.append_assoc, readerStep_flatten, List.append_assoc]

/-- C4: every chunk the reader emits before end-of-stream is valid
UTF-8 (so a multi-byte character split across reads is never emitted
partially); each step emits exactly the longest valid-UTF-8 prefix of
the accumulated buffer and holds back the remainder; no byte is lost
(the emitted chunks plus the held-back tail reassemble the input, the
tail being flushed only at EOF); and on the concrete split Euro sign the
two-byte head is held back until its continuation byte arrives. -/
theorem C4_reader_utf8 (chunks : List (List Nat)) :
    (∀ e ∈ (readerRun [] chunks).1, utf8Valid e = true)
    ∧ (readerRun [] chunks).1.flatten ++ (readerRun [] chunks).2 = chunks.flatten
    ∧ (∀ pending chunk,
        utf8Valid ((pending ++ chunk).take (longestValidLen (pending ++ chunk))) = true
        ∧ (∀ m, longestValidLen (pending ++ chunk) < m →
            m ≤ (pending ++ chunk).length →
            utf8Valid ((pending ++ chunk).take m) = false)
        ∧ (longestValidLen (pending ++ chunk) > 0 →
            readerStep pending chunk
              = ([(pending ++ chunk).take (longestValidLen (pending ++ chunk))],
                 (pending ++ chunk).drop (longestValidLen (pending ++ chunk)))))
    ∧ readerRun [] [[0xE2, 0x82], [0xAC]] = ([[0xE2, 0x82, 0xAC]], []) := by
  refine ⟨readerRun_valid chunks [], by simpa using readerRun_flatten chunks [],
    ?_, by rfl⟩
  intro pending chunk
  refine ⟨lvlGo_valid (pending ++ chunk) (pending ++ chunk).length,
    fun m h1 h2 => lvlGo_greatest (pending ++ chunk) (pending ++ chunk).length m h1 h2,
    ?_⟩
  intro h
  unfold readerStep
  rw [if_pos h]

/-- C4 witness: on the concrete reads [0xE2, 0x82] then [0xAC], the
emitted chunk is valid UTF-8 and reassembly holds. -/
theorem C4_reader_utf8_witness :
    utf8Valid [0xE2, 0x82, 0xAC] = true
    ∧ (readerRun [] [[0xE2, 0x82], [0xAC]]).1.flatten
        ++ (readerRun [] [[0xE2, 0x82], [0xAC]]).2
        = ([[0xE2, 0x82], [0xAC]] : List (List Nat)).flatten
    ∧ utf8Valid [0xE2, 0x82] = false := by
  refine ⟨?_, ?_, by rfl⟩
  · exact (C4_reader_utf8 [[0xE2, 0x82], [0xAC]]).1 [0xE2, 0x82, 0xAC] (by decide)
  · exact (C4_reader_utf8 [[0xE2, 0x82], [0xAC]]).2.1



/-- C2 counterexample: with project root "home/proj", the path "home" is
a canonicalizable strict ancestor of the root, yet validate_repo_path
rejects it with an access-denied error — the repo check does NOT accept
ancestors of the root. -/
theorem C2_counterexample :
    (["home"] : FsPath) ≠ ["home", "proj"]
    ∧ List.isPrefixOf (["home"] : FsPath) ["home", "proj"] = true
    ∧ (fsC2.canonicalize ["home"]).isSome = true
    ∧ validate_repo_path fsC2 (some ["home", "proj"]) ["home"]
        = .error ("Access denied: repo path is outside the project directory") := by
  refine ⟨by decide, by decide, by decide, by rfl⟩

/-- C1 witness: with root "home/proj" in the two-level concrete
filesystem, the in-root path validates to a clean descendant; the
non-existent in-root path walks to a clean trailing part; and
create_file on the strict ancestor "home" fails and leaves the
filesystem unchanged. -/
theorem C1_path_guard_witness :
    (List.isPrefixOf (["home", "proj"] : FsPath) ["home", "proj"] = true
      ∧ ∀ s ∈ (["home", "proj"] : FsPath), s ≠ "." ∧ s ≠ "..")
    ∧ (∀ s ∈ (["new"] : List String), s ≠ "." ∧ s ≠ "..")
    ∧ ((create_file fsC2 (some ["home", "proj"]) ["home"]).1.isOk = false
      ∧ (create_file fsC2 (some ["home", "proj"]) ["home"]).2 = fsC2) := by
  refine ⟨?_, ?_, ?_⟩
  · exact (C1_path_guard fsC2 ["home", "proj"] ["home", "proj"]).1
      ["home", "proj"] (by rfl)
  · exact (C1_path_guard fsC2 ["home", "proj"] ["home", "proj", "new"]).2.1
      ["home", "proj"] ["new"] (by rfl) (by rfl)
  · exact (((C1_path_guard fsC2 ["home", "proj"] ["home"]).2.2) (by rfl)).1

/-- C2 amended: validate_repo_path accepts exactly the canonicalizable
paths that are equal to or descendants of the project root (the same
containment rule as validate_path); ancestors are rejected. -/
theorem C2_repo_descendant_only (fs : Fs) (root repo c : FsPath) :
    validate_repo_path fs (some root) repo = .ok c ↔
      fs.canonicalize repo = some c ∧ root.isPrefixOf c = true := by
  unfold validate_repo_path
  cases h : fs.canonicalize repo with
  | none =>
    constructor
    · intro he; exact absurd he (by simp)
    · rintro ⟨h1, _⟩; cases h1
  | some c2 =>
    dsimp only
    by_cases hp : root.isPrefixOf c2 = true
    · rw [if_pos hp]
      constructor
      · intro he
        injection he with he2
        subst he2
        exact ⟨rfl, hp⟩
      · rintro ⟨h1, _⟩
        injection h1 with h1b
        subst h1b
        rfl
    · rw [if_neg hp]
      constructor
      · intro he; exact absurd he (by simp)
      · rintro ⟨h1, h2⟩
        injection h1 with h1b
        subst h1b
        exact absurd h2 hp

lemma mkdirAll_adds (fs : Fs) (p : FsPath) (fs1 : Fs)
    (h : fs.mkdirAll p = .ok fs1) :
    ∀ q ∈ prefixesOf (normalize p), q ∈ fs1.dirs := by
  unfold Fs.mkdirAll at h
  by_cases h1 : (prefixesOf (normalize p)).any (fun q => fs.isFileN q) = true
  · rw [if_pos h1] at h; exact Except.noConfusion h
  · rw [if_neg h1] at h
    injection h with h2
    subst h2
    intro q hq
    simp only [List.mem_append, List.mem_filter]
    by_cases h3 : q ∈ fs.dirs
    · exact Or.inl h3
    · exact Or.inr ⟨hq, by simpa using h3⟩



/-- C5 counterexample: creating folder "r/a/b" while "r/a" does not
exist succeeds and auto-creates the missing parent "r/a" — folder
creation does auto-create missing parent directories, contrary to the
claim that only file creation does. -/
theorem C5_counterexample :
    fsC5.pathExists ["r", "a"] = false
    ∧ (create_folder fsC5 (some ["r"]) ["r", "a", "b"]).1 = .ok ()
    ∧ ["r", "a"] ∈ (create_folder fsC5 (some ["r"]) ["r", "a", "b"]).2.dirs
    ∧ ["r", "a", "b"] ∈ (create_folder fsC5 (some ["r"]) ["r", "a", "b"]).2.dirs := by
  refine ⟨by rfl, by rfl, by decide, by decide⟩

/-- C5 amended: create_file and create_folder both fail with an
already-exists error when the validated target exists; and missing
parent directories are auto-created by BOTH — create_file via
create_dir_all on the parent, create_folder via create_dir_all on the
target itself (which creates every missing ancestor). -/
theorem C5_create_amended (fs : Fs) (root path c : FsPath) :
    (validate_path fs (some root) path = .ok c →
      fs.pathExists path = true →
        create_file fs (some root) path = (.error ("File already exists"), fs)
        ∧ create_folder fs (some root) path
            = (.error ("Folder already exists"), fs))
    ∧ (validate_path fs (some root) path = .ok c →
        fs.pathExists path = false →
        ∀ fs1, fs.mkdirAll path = .ok fs1 →
          create_folder fs (some root) path = (.ok (), fs1)
          ∧ ∀ q ∈ prefixesOf (normalize path), q ∈ fs1.dirs)
    ∧ (validate_path fs (some root) path = .ok c →
        fs.pathExists path = false →
        ∀ fs1 fs2, fs.mkdirAll (normalize path).dropLast = .ok fs1 →
          fs1.writeFile path = .ok fs2 →
          create_file fs (some root) path = (.ok (), fs2)
          ∧ ∀ q ∈ prefixesOf (normalize (normalize path).dropLast), q ∈ fs1.dirs) := by
  refine ⟨?_, ?_, ?_⟩
  · intro hv he
    constructor
    · unfold create_file
      rw [hv]
      dsimp only
      rw [if_pos he]
    · unfold create_folder
      rw [hv]
      dsimp only
      rw [if_pos he]
  · intro hv he fs1 hmk
    constructor
    · unfold create_folder
      rw [hv]
      dsimp only
      rw [if_neg (by simp [he]), hmk]
    · exact mkdirAll_adds fs path fs1 hmk
  · intro hv he fs1 fs2 hmk hw
    constructor
    · unfold create_file
      rw [hv]
      dsimp only
      rw [if_neg (by simp [he]), hmk]
      dsimp only
      rw [hw]
    · exact mkdirAll_adds fs (normalize path).dropLast fs1 hmk

/-- C5 witness: in the concrete root-only filesystem, both branches of
the amended claim fire — creating an existing path fails, creating
"r/a/b" succeeds and materializes "r/a". -/
theorem C5_create_amended_witness :
    (create_folder fsC5 (some ["r"]) ["r", "a", "b"]).1 = .ok ()
    ∧ ["r", "a"] ∈ (create_folder fsC5 (some ["r"]) ["r", "a", "b"]).2.dirs := by
  have h := (C5_create_amended fsC5 ["r"] ["r", "a", "b"] ["r", "a", "b"]).2.1
    (by rfl) (by rfl)
    { fsC5 with dirs := fsC5.dirs ++ [["r", "a"], ["r", "a", "b"]] } (by rfl)
  refine ⟨?_, ?_⟩
  · rw [h.1]
  · rw [h.1]
    exact h.2 ["r", "a"] (by decide)

lemma moveLoop_err_of_self (destC D : FsPath)
    (hpre : (normalize D).isPrefixOf destC = true) :
    ∀ (sources : List FsPath) (fs2 : Fs), D ∈ sources →
      (moveLoop fs2 destC sources).1.isOk = false := by
  intro sources
  induction sources with
  | nil => intro fs2 hD; cases hD
  | cons src rest ih =>
    intro fs2 hD
    unfold moveLoop
    cases hc : fs2.canonicalize src with
    | none => exact isOk_false_error _
    | some sc =>
      dsimp only
      have hsc : sc = normalize src := canonicalize_eq_normalize fs2 src sc hc
      by_cases hp : sc.isPrefixOf destC = true
      · rw [if_pos hp]; exact isOk_false_error _
      · rw [if_neg hp]
        have hsrc : src ≠ D := by
          intro he
          subst he
          rw [hsc] at hp
          exact hp hpre
        have hrest : D ∈ rest := by
          rcases List.mem_cons.mp hD with h1 | h1
          · exact absurd h1.symm hsrc
          · exact h1
        cases hl : sc.getLast? with
        | none => exact isOk_false_error _
        | some name =>
          dsimp only
          by_cases heq : sc = destC ++ [name]
          · rw [if_pos heq]; exact ih fs2 hrest
          · rw [if_neg heq]
            cases hr : fs2.rename sc (destC ++ [name]) with
            | error e => exact isOk_false_error _
            | ok fs3 => exact ih fs3 hrest

/-- C6: (1) for a single source D whose canonical form is a prefix of
the canonical destination (the destination is D itself or one of its
descendants), move_entries fails and leaves the filesystem unchanged;
(2) for any source list containing such a D, move_entries fails;
(3) a source whose canonical path equals its canonical destination
(destination directory joined with its file name) is silently skipped:
the call succeeds and the filesystem is unchanged. -/
theorem C6_move_self (fs : Fs) (root D dest destC srcC : FsPath) :
    (fs.canonicalize dest = some destC → fs.canonicalize D = some srcC →
      srcC.isPrefixOf destC = true →
        (move_entries fs (some root) [D] dest).1.isOk = false
        ∧ (move_entries fs (some root) [D] dest).2 = fs)
    ∧ (∀ sources, D ∈ sources →
        fs.canonicalize dest = some destC → fs.canonicalize D = some srcC →
        srcC.isPrefixOf destC = true →
        (move_entries fs (some root) sources dest).1.isOk = false)
    ∧ (∀ name,
        validate_path fs (some root) D = .ok srcC →
        validate_path fs (some root) dest = .ok destC →
        fs.canonicalize dest = some destC →
        fs.isDirN destC = true →
        fs.canonicalize D = some srcC →
        srcC.getLast? = some name →
        srcC = destC ++ [name] →
          move_entries fs (some root) [D] dest = (.ok (), fs)) := by
  refine ⟨?_, ?_, ?_⟩
  · intro hcd hcD hpre
    unfold move_entries
    cases ha : validateAll fs (some root) [D] with
    | error e => exact ⟨isOk_false_error e, rfl⟩
    | ok u =>
      dsimp only
      cases hv : validate_path fs (some root) dest with
      | error e => exact ⟨isOk_false_error e, rfl⟩
      | ok cd =>
        dsimp only
        rw [hcd]
        dsimp only
        by_cases hdir : fs.isDirN destC = true
        · rw [if_pos hdir]
          unfold moveLoop
          rw [hcD]
          dsimp only
          rw [if_pos hpre]
          exact ⟨isOk_false_error _, rfl⟩
        · rw [if_neg hdir]
          exact ⟨isOk_false_error _, rfl⟩
  · intro sources hD hcd hcD hpre
    have hpre2 : (normalize D).isPrefixOf destC = true := by
      rw [← canonicalize_eq_normalize fs D srcC hcD]; exact hpre
    unfold move_entries
    cases ha : validateAll fs (some root) sources with
    | error e => exact isOk_false_error e
    | ok u =>
      dsimp only
      cases hv : validate_path fs (some root) dest with
      | error e => exact isOk_false_error e
      | ok cd =>
        dsimp only
        rw [hcd]
        dsimp only
        by_cases hdir : fs.isDirN destC = true
        · rw [if_pos hdir]
          exact moveLoop_err_of_self destC D hpre2 sources fs hD
        · rw [if_neg hdir]
          exact isOk_false_error _
  · intro name hvD hvdest hcd hdir hcD hlast heq
    have hnp : srcC.isPrefixOf destC = false := by
      by_contra hx
      simp only [Bool.not_eq_false] at hx
      have h1 : srcC.length ≤ destC.length :=
        (List.isPrefixOf_iff_prefix.mp hx).length_le
      rw [heq] at h1
      simp at h1
    unfold move_entries
    have hva : validateAll fs (some root) [D] = .ok () := by
      unfold validateAll
      rw [hvD]
      rfl
    rw [hva]
    dsimp only
    rw [hvdest]
    dsimp only
    rw [hcd]
    dsimp only
    rw [if_pos hdir]
    unfold moveLoop
    rw [hcD]
    dsimp only
    rw [if_neg (by simp [hnp]), hlast]
    dsimp only
    rw [if_pos heq]
    rfl



/-- C6 witness: moving "r/d" into its own subdirectory "r/d/e" fails
and changes nothing; moving "r/d" into "r" (where it already lives) is
silently skipped. -/
theorem C6_move_self_witness :
    ((move_entries fsC6 (some ["r"]) [["r", "d"]] ["r", "d", "e"]).1.isOk = false
      ∧ (move_entries fsC6 (some ["r"]) [["r", "d"]] ["r", "d", "e"]).2 = fsC6)
    ∧ move_entries fsC6 (some ["r"]) [["r", "d"]] ["r"] = (.ok (), fsC6) := by
  constructor
  · exact (C6_move_self fsC6 ["r"] ["r", "d"] ["r", "d", "e"] ["r", "d", "e"]
      ["r", "d"]).1 (by rfl) (by rfl) (by rfl)
  · exact (C6_move_self fsC6 ["r"] ["r", "d"] ["r"] ["r"] ["r", "d"]).2.2 "d"
      (by rfl) (by rfl) (by rfl) (by rfl) (by rfl) (by rfl) (by rfl)

lemma mem_insertEntry (x e : FileEntry) (l : List FileEntry) :
    e ∈ insertEntry x l ↔ e = x ∨ e ∈ l := by
  induction l with
  | nil => simp [insertEntry]
  | cons y ys ih =>
    unfold insertEntry
    by_cases h : entryLe x y = true
    · rw [if_pos h]
      simp only [List.mem_cons]
    · rw [if_neg h]
      simp only [List.mem_cons, ih]
      tauto

lemma mem_sortEntries (e : FileEntry) (l : List FileEntry) :
    e ∈ sortEntries l ↔ e ∈ l := by
  induction l with
  | nil => simp [sortEntries]
  | cons x xs ih =>
    unfold sortEntries
    rw [mem_insertEntry, ih, List.mem_cons]

lemma nodesAtDepth_nil : ∀ k, nodesAtDepth k [] = [] := by
  intro k
  induction k with
  | zero => rfl
  | succ k ih => simpa [nodesAtDepth] using ih

lemma nodesAtDepth_append : ∀ (k : Nat) (l1 l2 : List FileEntry),
    nodesAtDepth k (l1 ++ l2) = nodesAtDepth k l1 ++ nodesAtDepth k l2 := by
  intro k
  induction k with
  | zero => intro l1 l2; rfl
  | succ k ih =>
    intro l1 l2
    simp only [nodesAtDepth, List.map_append, List.flatten_append]
    exact ih _ _

lemma nodesAtDepth_flatten_mem : ∀ (Ls : List (List FileEntry)) (k : Nat)
    (e : FileEntry),
    e ∈ nodesAtDepth k Ls.flatten ↔ ∃ l ∈ Ls, e ∈ nodesAtDepth k l := by
  intro Ls
  induction Ls with
  | nil =>
    intro k e
    simp [nodesAtDepth_nil]
  | cons l rest ih =>
    intro k e
    simp only [List.flatten_cons, nodesAtDepth_append, List.mem_append, ih,
      List.mem_cons]
    constructor
    · rintro (h | ⟨l2, h1, h2⟩)
      · exact ⟨l, Or.inl rfl, h⟩
      · exact ⟨l2, Or.inr h1, h2⟩
    · rintro ⟨l2, h1 | h1, h2⟩
      · subst h1; exact Or.inl h2
      · exact Or.inr ⟨l2, h1, h2⟩

lemma readDirGo_mem_shape (fs : Fs) (fuel : Nat) (p : FsPath) (cur maxd : Nat)
    (e : FileEntry)
    (he : e ∈ (readDirGo fs (fuel + 1) p cur maxd).toOption.getD []) :
    ∃ nm d, e = FileEntry.mk nm (p ++ [nm]) d
      (if d then
        if cur < maxd then
          some ((readDirGo fs fuel (p ++ [nm]) (cur + 1) maxd).toOption.getD [])
        else some []
      else none) := by
  unfold readDirGo at he
  by_cases h1 : fs.isDir p = true
  · rw [if_pos h1] at he
    simp only [Except.toOption, Option.getD] at he
    rw [mem_sortEntries] at he
    obtain ⟨k, hk, hke⟩ := List.mem_map.mp he
    exact ⟨k.1, k.2, hke.symm⟩
  · rw [if_neg h1] at he
    simp [Except.toOption] at he

lemma readDirGo_cutoff (fs : Fs) (fuel : Nat) (p : FsPath) (cur maxd : Nat)
    (hcm : ¬ cur < maxd) :
    ∀ e ∈ (readDirGo fs fuel p cur maxd).toOption.getD [],
      (e.is_dir = true → e.children = some [])
      ∧ (e.is_dir = false → e.children = none) := by
  intro e he
  cases fuel with
  | zero =>
    simp [readDirGo, Except.toOption] at he
  | succ fuel =>
    obtain ⟨nm, d, rfl⟩ := readDirGo_mem_shape fs fuel p cur maxd e he
    cases d with
    | false => simp [FileEntry.is_dir, FileEntry.children]
    | true => simp [FileEntry.is_dir, FileEntry.children, hcm]

lemma readDirGo_level (fs : Fs) (maxd : Nat) :
    ∀ (k fuel : Nat) (p : FsPath) (cur : Nat), cur + k = maxd →
    ∀ e ∈ nodesAtDepth k ((readDirGo fs fuel p cur maxd).toOption.getD []),
      (e.is_dir = true → e.children = some [])
      ∧ (e.is_dir = false → e.children = none) := by
  intro k
  induction k with
  | zero =>
    intro fuel p cur hck e he
    exact readDirGo_cutoff fs fuel p cur maxd (by omega) e he
  | succ k ih =>
    intro fuel p cur hck e he
    cases fuel with
    | zero =>
      simp [readDirGo, Except.toOption, nodesAtDepth_nil] at he
    | succ fuel =>
      simp only [nodesAtDepth] at he
      rw [nodesAtDepth_flatten_mem] at he
      obtain ⟨cl, hcl, hecl⟩ := he
      obtain ⟨e2, he2, hcle⟩ := List.mem_map.mp hcl
      obtain ⟨nm, d, rfl⟩ := readDirGo_mem_shape fs fuel p cur maxd e2 he2
      have hcm : cur < maxd := by omega
      cases d with
      | false =>
        rw [← hcle] at hecl
        simp [childrenOrNil, FileEntry.children, nodesAtDepth_nil] at hecl
      | true =>
        rw [← hcle] at hecl
        have hch : childrenOrNil (FileEntry.mk nm (p ++ [nm]) true
            (if true then
              if cur < maxd then
                some ((readDirGo fs fuel (p ++ [nm]) (cur + 1) maxd).toOption.getD [])
              else some []
            else none))
            = (readDirGo fs fuel (p ++ [nm]) (cur + 1) maxd).toOption.getD [] := by
          simp [childrenOrNil, FileEntry.children, hcm]
        rw [hch] at hecl
        exact ih fuel (p ++ [nm]) (cur + 1) (by omega) e hecl

/-- C7: the recursion depth of read_dir_tree is bounded by
min(requested, 50) — requesting any deeper depth produces the same tree
as requesting 50 — and in a successful listing every node at exactly the
cutoff depth is a directory entry with an empty (Some, not None)
children list, or a file entry with an absent (None) children list. -/
theorem C7_depth_cutoff (fs : Fs) (root path : FsPath) (depth : Option Nat) :
    (∀ d, read_dir_tree fs (some root) path (some d)
        = read_dir_tree fs (some root) path (some (min d 50)))
    ∧ (∀ l, read_dir_tree fs (some root) path depth = .ok l →
        ∀ e ∈ nodesAtDepth (min (depth.getD 1) 50) l,
          (e.is_dir = true → e.children = some [])
          ∧ (e.is_dir = false → e.children = none)) := by
  constructor
  · intro d
    unfold read_dir_tree
    have hm : min (min d 50) 50 = min d 50 := by omega
    simp only [Option.getD_some, hm]
  · intro l hl e he
    unfold read_dir_tree at hl
    cases hv : validate_path fs (some root) path with
    | error e2 => rw [hv] at hl; exact Except.noConfusion hl
    | ok c =>
      rw [hv] at hl
      dsimp only at hl
      unfold read_dir_recursive at hl
      have hlist : l
          = (readDirGo fs (min (depth.getD 1) 50 + 1 - 0) path 0
              (min (depth.getD 1) 50)).toOption.getD [] := by
        rw [hl]; rfl
      rw [hlist] at he
      exact readDirGo_level fs (min (depth.getD 1) 50) (min (depth.getD 1) 50)
        (min (depth.getD 1) 50 + 1 - 0) path 0 (by omega) e he



/-- C7 witness: listing "r" at depth 1 over the four-level chain puts
the directory "r/a/b" exactly at the cutoff, where its children list is
Some [] (expandable), as the theorem instantiates. -/
theorem C7_depth_cutoff_witness :
    (FileEntry.mk "b" ["r", "a", "b"] true (some [])).children = some [] :=
  ((C7_depth_cutoff fsC7 ["r"] ["r"] (some 1)).2
    ((read_dir_tree fsC7 (some ["r"]) ["r"] (some 1)).toOption.getD [])
    (by rfl)
    (FileEntry.mk "b" ["r", "a", "b"] true (some []))
    (by exact List.mem_singleton.mpr rfl)).1 rfl

lemma copyTargetLoop_ok (fs : Fs) (parent : FsPath) (stem ext2 : String)
    (d : Bool) :
    ∀ fuel i t, copyTargetLoop fs parent stem ext2 d i fuel = .ok t →
      ∃ j, i ≤ j ∧ j < i + fuel
        ∧ t = parent ++ [copyName stem ext2 d j]
        ∧ fs.pathExists t = false
        ∧ ∀ m, i ≤ m → m < j →
            fs.pathExists (parent ++ [copyName stem ext2 d m]) = true := by
  intro fuel
  induction fuel with
  | zero => intro i t h; exact Except.noConfusion h
  | succ fuel ih =>
    intro i t h
    unfold copyTargetLoop at h
    by_cases hx : fs.pathExists (parent ++ [copyName stem ext2 d i]) = true
    · rw [if_pos hx] at h
      obtain ⟨j, h1, h2, h3, h4, h5⟩ := ih (i + 1) t h
      refine ⟨j, by omega, by omega, h3, h4, ?_⟩
      intro m hm1 hm2
      by_cases hmi : m = i
      · subst hmi; exact hx
      · exact h5 m (by omega) hm2
    · rw [if_neg hx] at h
      injection h with h2
      subst h2
      exact ⟨i, le_rfl, by omega, rfl, by simpa using hx, fun m h1 h2 => by omega⟩

lemma copyTargetLoop_exhaust (fs : Fs) (parent : FsPath) (stem ext2 : String)
    (d : Bool) :
    ∀ fuel i,
      (∀ m, i ≤ m → m < i + fuel →
        fs.pathExists (parent ++ [copyName stem ext2 d m]) = true) →
      copyTargetLoop fs parent stem ext2 d i fuel
        = .error ("Too many copies exist") := by
  intro fuel
  induction fuel with
  | zero => intro i _; rfl
  | succ fuel ih =>
    intro i h
    unfold copyTargetLoop
    rw [if_pos (h i le_rfl (by omega))]
    exact ih (i + 1) (fun m h1 h2 => h m (by omega) (by omega))



/-- C8: duplicating "a.txt" next to an existing "a.txt" creates
"a copy.txt"; duplicating again creates "a copy 2.txt"; in general the
attempted names are "stem copy ext" first and "stem copy N ext" for
N = 2, 3, ...; a successful duplication used the first collision-free
attempt (all earlier attempts named existing entries); and when every
one of the 10000 attempts collides the loop fails with the
too-many-copies error. -/
theorem C8_duplicate_naming :
    ((duplicate_entry fsC8 (some ["r"]) ["r", "a.txt"]).1 = .ok ()
      ∧ ["r", "a copy.txt"]
          ∈ (duplicate_entry fsC8 (some ["r"]) ["r", "a.txt"]).2.files)
    ∧ ((duplicate_entry (duplicate_entry fsC8 (some ["r"]) ["r", "a.txt"]).2
          (some ["r"]) ["r", "a.txt"]).1 = .ok ()
      ∧ ["r", "a copy 2.txt"]
          ∈ (duplicate_entry (duplicate_entry fsC8 (some ["r"]) ["r", "a.txt"]).2
              (some ["r"]) ["r", "a.txt"]).2.files)
    ∧ (∀ stem ext2 : String,
        copyName stem ext2 false 1 = stem ++ " copy" ++ ext2
        ∧ ∀ n, 2 ≤ n →
            copyName stem ext2 false n = stem ++ " copy " ++ toString n ++ ext2)
    ∧ (∀ (fs : Fs) (parent : FsPath) (stem ext2 : String) (d : Bool) fuel i t,
        copyTargetLoop fs parent stem ext2 d i fuel = .ok t →
        ∃ j, i ≤ j ∧ j < i + fuel
          ∧ t = parent ++ [copyName stem ext2 d j]
          ∧ fs.pathExists t = false
          ∧ ∀ m, i ≤ m → m < j →
              fs.pathExists (parent ++ [copyName stem ext2 d m]) = true)
    ∧ (∀ (fs : Fs) (parent : FsPath) (stem ext2 : String) (d : Bool),
        (∀ m, 1 ≤ m → m ≤ 10000 →
          fs.pathExists (parent ++ [copyName stem ext2 d m]) = true) →
        copyTargetLoop fs parent stem ext2 d 1 10000
          = .error ("Too many copies exist")) := by
  refine ⟨⟨by rfl, by decide⟩, ⟨by rfl, by decide⟩, ?_, ?_, ?_⟩
  · intro stem ext2
    refine ⟨rfl, ?_⟩
    intro n hn
    unfold copyName
    rw [if_neg (by omega : ¬ n = 1)]
    rfl
  · intro fs parent stem ext2 d fuel i t h
    exact copyTargetLoop_ok fs parent stem ext2 d fuel i t h
  · intro fs parent stem ext2 d h
    exact copyTargetLoop_exhaust fs parent stem ext2 d 10000 1
      (fun m h1 h2 => h m h1 (by omega))

/-- C8 witness: the first duplication attempt for "a.txt" in the
concrete filesystem succeeds immediately with "a copy.txt", which the
ordering part of the theorem certifies as the first free attempt. -/
theorem C8_duplicate_naming_witness :
    ∃ j, 1 ≤ j ∧ j < 1 + 10000
      ∧ (["r", "a copy.txt"] : FsPath) = ["r"] ++ [copyName "a" ".txt" false j]
      ∧ fsC8.pathExists ["r", "a copy.txt"] = false
      ∧ ∀ m, 1 ≤ m → m < j →
          fsC8.pathExists (["r"] ++ [copyName "a" ".txt" false m]) = true :=
  C8_duplicate_naming.2.2.2.1 fsC8 ["r"] "a" ".txt" false 10000 1
    ["r", "a copy.txt"] (by rfl)

lemma foldl_normStep_clean_id (p : FsPath)
    (h : ∀ s ∈ p, s ≠ "." ∧ s ≠ "..") :
    ∀ acc, p.foldl normStep acc = acc ++ p := by
  induction p with
  | nil => intro acc; simp
  | cons c rest ih =>
    intro acc
    have hc := h c (List.mem_cons_self c rest)
    simp only [List.foldl_cons]
    rw [show normStep acc c = acc ++ [c] by
      unfold normStep; rw [if_neg hc.1, if_neg hc.2]]
    rw [ih (fun s hs => h s (List.mem_cons_of_mem c hs)) (acc ++ [c])]
    simp

/-- Normalization is the identity on clean paths. -/
lemma normalize_clean_id (p : FsPath) (h : ∀ s ∈ p, s ≠ "." ∧ s ≠ "..") :
    normalize p = p := by
  unfold normalize
  rw [foldl_normStep_clean_id p h []]
  simp

lemma stripCur_clean_id (p : FsPath) (h : ∀ s ∈ p, s ≠ ".") :
    stripCur p = p :=
  List.filter_eq_self.mpr (fun a ha => by simpa using h a ha)

lemma isPrefixOf_self (l : FsPath) : l.isPrefixOf l = true :=
  List.isPrefixOf_iff_prefix.mpr (List.prefix_refl l)

lemma not_isPrefixOf_dropLast (p : FsPath) (h : p ≠ []) :
    p.isPrefixOf p.dropLast = false := by
  by_contra hx
  simp only [Bool.not_eq_false] at hx
  have h1 : p.length ≤ p.dropLast.length :=
    (List.isPrefixOf_iff_prefix.mp hx).length_le
  have h2 : 0 < p.length := List.length_pos.mpr h
  simp only [List.length_dropLast] at h1
  omega

lemma validate_ok_exists_canon (fs : Fs) (root path c : FsPath)
    (he : fs.pathExists (stripCur path) = true)
    (h : validate_path fs (some root) path = .ok c) :
    c = normalize (stripCur path) := by
  unfold validate_path canonicalOf at h
  rw [if_pos he] at h
  unfold Fs.canonicalize at h
  rw [if_pos he] at h
  dsimp only at h
  by_cases hp : root.isPrefixOf (normalize (stripCur path)) = true
  · rw [if_pos hp] at h
    injection h with h2
    exact h2.symm
  · rw [if_neg hp] at h
    exact Except.noConfusion h



/-- C9 counterexample: deleting the path "r/x/y/.." (which exists — it
resolves to "r/x" — and validates) trashes "r/x"; but the second
identical call is NOT a silent no-op: revalidation of the now-absent
path walks its ancestors, hits the component ".." as a file name
(Path::file_name returns None on a path ending in ".."), and fails with
"Invalid path" instead of succeeding. -/
theorem C9_counterexample :
    (delete_entries fsC9 (some ["r"]) [["r", "x", "y", ".."]]).1 = .ok ()
    ∧ normalize ["r", "x", "y", ".."]
        ∈ (delete_entries fsC9 (some ["r"]) [["r", "x", "y", ".."]]).2.trashed
    ∧ (delete_entries
        (delete_entries fsC9 (some ["r"]) [["r", "x", "y", ".."]]).2
        (some ["r"]) [["r", "x", "y", ".."]]).1
      = .error ("Invalid path") := by
  exact ⟨rfl, by decide, rfl⟩

/-- C9 amended: delete_entries routes the validated path to the OS
trash and is idempotent — the second call succeeds as a silent no-op —
for every validated path free of "." and ".." components, in a
well-formed filesystem.  (For a path with a ".." trailing component the
second call can instead fail revalidation, as the counterexample
shows.) -/
theorem C9_delete_idempotent (fs : Fs) (root p : FsPath)
    (hWF : fs.WF) (hclean : ∀ s ∈ p, s ≠ "." ∧ s ≠ "..") (hne : p ≠ [])
    (c : FsPath) (hv : validate_path fs (some root) p = .ok c) :
    (delete_entries fs (some root) [p]).1 = .ok ()
    ∧ (fs.pathExists p = true →
        normalize p ∈ (delete_entries fs (some root) [p]).2.trashed)
    ∧ delete_entries (delete_entries fs (some root) [p]).2 (some root) [p]
        = (.ok (), (delete_entries fs (some root) [p]).2) := by
  have hnorm : normalize p = p := normalize_clean_id p hclean
  have hstrip : stripCur p = p := stripCur_clean_id p (fun s hs => (hclean s hs).1)
  have hva : validateAll fs (some root) [p] = .ok () := by
    unfold validateAll
    rw [hv]
    rfl
  by_cases he : fs.pathExists p = true
  · -- the path exists: the first call trashes it
    have hfirst : delete_entries fs (some root) [p]
        = (.ok (), fs.trashDelete p) := by
      unfold delete_entries
      rw [hva]
      unfold deleteLoop
      rw [if_pos he]
      rfl
    -- facts about the state after the deletion
    have hmem : p ∈ fs.dirs ∨ p ∈ fs.files := by
      have := he
      unfold Fs.pathExists Fs.isDirN Fs.isFileN at this
      rw [hnorm] at this
      simpa using this
    have hdl : p.dropLast ∈ fs.dirs := by
      rcases hmem with h1 | h1
      · exact hWF.2.2.1 p (List.mem_append.mpr (Or.inl h1)) hne
      · exact hWF.2.2.1 p (List.mem_append.mpr (Or.inr h1)) hne
    have hdlclean : ∀ s ∈ p.dropLast, s ≠ "." ∧ s ≠ ".." :=
      fun s hs => hclean s ((List.dropLast_sublist p).subset hs)
    have hdlnorm : normalize p.dropLast = p.dropLast :=
      normalize_clean_id p.dropLast hdlclean
    have hpe1 : (fs.trashDelete p).pathExists p = false := by
      unfold Fs.pathExists Fs.isDirN Fs.isFileN Fs.trashDelete
      rw [hnorm]
      simp [List.mem_filter, isPrefixOf_self]
    have hpe2 : (fs.trashDelete p).pathExists p.dropLast = true := by
      unfold Fs.pathExists Fs.isDirN Fs.isFileN Fs.trashDelete
      rw [hnorm, hdlnorm]
      simp only [List.mem_filter, Bool.or_eq_true, decide_eq_true_eq]
      exact Or.inl ⟨hdl, by simp [not_isPrefixOf_dropLast p hne]⟩
    -- the trailing component of the walk
    have hlast : p.getLast? = some (p.getLast hne) :=
      List.getLast?_eq_getLast p hne
    have hlmem : p.getLast hne ∈ p := List.getLast_mem hne
    have hlc := hclean (p.getLast hne) hlmem
    -- the second validation succeeds and returns p again
    have hcanon : c = p := by
      rw [validate_ok_exists_canon fs root p c (by rw [hstrip]; exact he) hv,
        hstrip, hnorm]
    have hroot : root.isPrefixOf p = true := by
      have := (validate_ok_inside fs root p c hv).1
      rwa [hcanon] at this
    have hsecondv : validate_path (fs.trashDelete p) (some root) p = .ok p := by
      unfold validate_path canonicalOf
      rw [hstrip, if_neg (by simp [hpe1])]
      unfold findAncestor
      have hgo : findAncestorGo (fs.trashDelete p) p.length p []
          = .ok (p.dropLast, [p.getLast hne]) := by
        unfold findAncestorGo
        rw [hlast]
        dsimp only
        rw [if_neg hlc.2, if_pos hpe2]
        rfl
      rw [hgo]
      dsimp only
      have hcanon2 : (fs.trashDelete p).canonicalize p.dropLast
          = some p.dropLast := by
        unfold Fs.canonicalize
        rw [if_pos hpe2, hdlnorm]
      rw [hcanon2]
      dsimp only
      rw [show ([p.getLast hne] : List String).reverse = [p.getLast hne] from by simp]
      unfold reattach
      rw [if_neg (fun hcon => hcon.elim (fun h2 => hlc.2 h2) (fun h2 => hlc.1 h2))]
      unfold reattach
      dsimp only
      rw [List.dropLast_append_getLast hne]
      rw [if_pos hroot]
    have hva2 : validateAll (fs.trashDelete p) (some root) [p] = .ok () := by
      unfold validateAll
      rw [hsecondv]
      rfl
    refine ⟨by rw [hfirst], ?_, ?_⟩
    · intro _
      rw [hfirst]
      unfold Fs.trashDelete
      simp
    · rw [hfirst]
      unfold delete_entries
      rw [hva2]
      unfold deleteLoop
      rw [if_neg (by simp [hpe1])]
      rfl
  · -- the path is already absent: both calls are silent no-ops
    have hfirst : delete_entries fs (some root) [p] = (.ok (), fs) := by
      unfold delete_entries
      rw [hva]
      unfold deleteLoop
      rw [if_neg he]
      rfl
    refine ⟨by rw [hfirst], fun hex => absurd hex he, ?_⟩
    rw [hfirst]
    unfold delete_entries
    rw [hva]
    unfold deleteLoop
    rw [if_neg he]
    rfl

/-- C9 witness: deleting the clean path "r/x" in the concrete
filesystem trashes it, and the repeated call is a silent no-op. -/
theorem C9_delete_idempotent_witness :
    (delete_entries fsC9 (some ["r"]) [["r", "x"]]).1 = .ok ()
    ∧ delete_entries (delete_entries fsC9 (some ["r"]) [["r", "x"]]).2
        (some ["r"]) [["r", "x"]]
      = (.ok (), (delete_entries fsC9 (some ["r"]) [["r", "x"]]).2) := by
  have h := C9_delete_idempotent fsC9 ["r"] ["r", "x"]
    (by unfold Fs.WF; decide) (by decide) (by decide) ["r", "x"] (by rfl)
  exact ⟨h.1, h.2.2⟩

end EIDE
